import Mathlib

/-!
Verification of the conditional-import stripping plugin.

The development shallowly embeds the plugin's core:
* the import-attribute extractor (`getWithObject`, `getImportAttributes`),
* the per-file strip transform (`transform`), including its scatter/gather
  of asynchronous predicate decisions, modelled by an explicit completion
  (settle) order derived from a per-task delay assignment,
* the lazy memoized specifier resolver (`accessResolvedTarget`),
* the plugin transform hook (`pluginTransformHook`) with its file-extension
  gate and Origin Registry updates, and
* the bundle verifier (`checkChunk`, `checkBundle`, `generateBundleError`).

External collaborators (the SWC parser and printer, node's path library,
vite's `normalizePath`, the ESLint-based free-variable analysis and the
trace-mapping library) are taken as parameters: the embedding covers the
plugin's own logic over their results, which is what the claims are about.
-/

set_option linter.unusedVariables false

namespace ConditionalImports

/-- Scalar literal value of an import attribute.  The source keeps the
literal's native kind (string, boolean, number) as read from the literal
node's `value` field. -/
inductive AttrValue where
  | str (s : String)
  | boolVal (b : Bool)
  | numVal (n : Int)
  deriving DecidableEq

/-- One property of an import's attribute clause object.  The source reads
`attr.key.value` and `attr.value.value`, which exist exactly when the key /
value nodes carry a literal `value` field; `none` models a node without such
a field (a non-literal or unparseable entry). -/
structure Property where
  key : Option String
  value : Option AttrValue
  deriving DecidableEq

/-- The object of a `with { ... }` (or legacy `assert { ... }`) clause. -/
structure ObjectExpression where
  properties : List Property
  deriving DecidableEq

/-- One import specifier; `localValue` is the source's `spec.local.value`,
the local binding name it introduces. -/
structure Specifier where
  localValue : String
  deriving DecidableEq

/-- An `ImportDeclaration` node, restricted to the fields the plugin reads:
`typeOnly`, `source.value` (here `sourceValue`), the specifier list and the
two possible attribute clauses (`with`, spelled `withClause` because `with`
is reserved, and the legacy `asserts`). -/
structure ImportDeclaration where
  typeOnly : Bool
  sourceValue : String
  specifiers : List Specifier
  withClause : Option ObjectExpression
  asserts : Option ObjectExpression
  deriving DecidableEq

/-- A top-level module item: an import declaration or any other statement
(opaque to the plugin, carried verbatim). -/
inductive ModuleItem where
  | importDecl (d : ImportDeclaration)
  | other (text : String)
  deriving DecidableEq

/-- `getWithObject`: `node.with ?? node.asserts`. -/
def getWithObject (node : ImportDeclaration) : Option ObjectExpression :=
  node.withClause <|> node.asserts

/-- `getAttrList`: `(withObj?.properties as Property[]) ?? []`. -/
def getAttrList (node : ImportDeclaration) : List Property :=
  ((getWithObject node).map ObjectExpression.properties).getD []

/-- `getKey`: the key node's literal `value` field, when present. -/
def getKey (attr : Property) : Option String :=
  attr.key

/-- `getVal`: the value node's literal `value` field, when present. -/
def getVal (attr : Property) : Option AttrValue :=
  attr.value

/-- JavaScript object assignment `out[key] = val` on an ordered record:
an existing key keeps its position and gets the new value, a new key is
appended at the end. -/
def recordSet (out : List (String × AttrValue)) (k : String) (v : AttrValue) :
    List (String × AttrValue) :=
  if out.any (fun p => p.1 == k) then
    out.map (fun p => if p.1 == k then (k, v) else p)
  else out ++ [(k, v)]

/-- `getImportAttributes`: fold the attribute list into a plain ordered
record, keeping an entry only when both `getKey` and `getVal` produce a
value (`if (key != null && val != null) out[key] = val`). -/
def getImportAttributes (node : ImportDeclaration) : List (String × AttrValue) :=
  (getAttrList node).foldl
    (fun out attr =>
      match getKey attr, getVal attr with
      | some k, some v => recordSet out k v
      | _, _ => out)
    []

/-- The external path library surface used by `relativeToRoot`:
node's `path.relative`, `path.isAbsolute` and vite's `normalizePath`. -/
structure PathLib where
  relative : String → String → String
  isAbsolute : String → Bool
  normalizePath : String → String

/-- `String.startsWith`, computed on the character lists (same semantics,
stated structurally so concrete instances evaluate). -/
def strStartsWith (s pre : String) : Bool :=
  pre.data.isPrefixOf s.data

/-- `String.endsWith`, computed on the character lists (same semantics,
stated structurally so concrete instances evaluate). -/
def strEndsWith (s post : String) : Bool :=
  post.data.isSuffixOf s.data

/-- `relativeToRoot(filePath, root)` from the transform module. -/
def relativeToRoot (P : PathLib) (filePath root : String) : String :=
  let rel := P.relative root filePath
  if strStartsWith rel ".." || P.isAbsolute rel then filePath
  else P.normalizePath rel

/-- Per-file state of the lazy memoized resolver: the `resolveCache` map
(specifier text to the shared promise, identified by a numeric id) and the
log of calls actually issued to the external resolution service
(`context.resolve`), in order. -/
structure ResolveState where
  resolveCache : List (String × Nat)
  resolveLog : List String
  deriving DecidableEq

def initResolveState : ResolveState := ⟨[], []⟩

/-- The `resolvedTarget` getter: look the specifier up in `resolveCache`;
on a hit return the cached promise, on a miss issue one resolution call,
cache the fresh promise and return it. -/
def accessResolvedTarget (s : ResolveState) (target : String) : ResolveState × Nat :=
  match s.resolveCache.find? (fun p => p.1 == target) with
  | some p => (s, p.2)
  | none =>
    let pid := s.resolveLog.length
    ({ resolveCache := s.resolveCache ++ [(target, pid)],
       resolveLog := s.resolveLog ++ [target] }, pid)

/-- Run a sequence of `resolvedTarget` accesses (in any interleaving the
file's transform produces), returning the final state and the promise id
each access returned. -/
def runAccesses (s : ResolveState) : List String → ResolveState × List Nat
  | [] => (s, [])
  | t :: rest =>
    let a := accessResolvedTarget s t
    let b := runAccesses a.1 rest
    (b.1, a.2 :: b.2)

/-- The promise the cache currently holds for a specifier. -/
def cacheLookup (s : ResolveState) (target : String) : Option Nat :=
  (s.resolveCache.find? (fun p => p.1 == target)).map (fun p => p.2)

/-- An entry of the transform's `body` array: either a plain module item
pushed directly, or the decision promise created for the non-type import
at that position (identified by its body index). -/
abbrev BodyEntry := ModuleItem ⊕ (Nat × ImportDeclaration)

/-- The transform's scatter loop: non-import statements and type-only
declarations are pushed as-is, every other import declaration contributes
a decision task at its body position. -/
def scatterFrom (n : Nat) : List ModuleItem → List BodyEntry
  | [] => []
  | ModuleItem.importDecl d :: rest =>
    (if d.typeOnly then Sum.inl (ModuleItem.importDecl d) else Sum.inr (n, d))
      :: scatterFrom (n + 1) rest
  | ModuleItem.other s :: rest =>
    Sum.inl (ModuleItem.other s) :: scatterFrom (n + 1) rest

def entryTask : BodyEntry → Option (Nat × ImportDeclaration)
  | Sum.inl _ => none
  | Sum.inr t => some t

/-- The decision tasks (promises) a file's transform creates: the `inr`
entries of the scattered body. -/
def transformTasksFrom (n : Nat) (l : List ModuleItem) : List (Nat × ImportDeclaration) :=
  (scatterFrom n l).filterMap entryTask

/-- JavaScript `Set.add` on an insertion-ordered list. -/
def insertSet (l : List String) (x : String) : List String :=
  if x ∈ l then l else l ++ [x]

/-- Add every specifier's local name of a stripped import to the
`strippedImportSymbols` set. -/
def addSymbols (acc : List String) (specs : List Specifier) : List String :=
  specs.foldl (fun a s => insertSet a s.localValue) acc

/-- Mutable state accumulated while decision promises settle: the two
stripped sets, the settled `(index, fulfilled value)` pairs (the value is
the kept item or `none` for a stripped one), and the first rejection. -/
structure GatherState (ε : Type) where
  strippedImportTargets : List String
  strippedImportSymbols : List String
  settled : List (Nat × Option ModuleItem)
  firstError : Option ε

def initGatherState (ε : Type) : GatherState ε := ⟨[], [], [], none⟩

/-- Settling of one decision promise (the `.then` callback): a `keep`
decision fulfills with the import item, a `strip` decision records the
target and bound names and fulfills with `null`; a rejection is kept as
the joint `Promise.all` rejection if it is the first. -/
def settleTask (shouldStripAt : Nat → ImportDeclaration → Except ε Bool)
    (st : GatherState ε) (t : Nat × ImportDeclaration) : GatherState ε :=
  match shouldStripAt t.1 t.2 with
  | Except.error e => { st with firstError := st.firstError <|> some e }
  | Except.ok false =>
    { st with settled := st.settled ++ [(t.1, some (ModuleItem.importDecl t.2))] }
  | Except.ok true =>
    { st with
      strippedImportTargets := insertSet st.strippedImportTargets t.2.sourceValue
      strippedImportSymbols := addSymbols st.strippedImportSymbols t.2.specifiers
      settled := st.settled ++ [(t.1, none)] }

/-- The completion order of the decision promises: tasks sorted by their
delay (ties settle in creation order).  The delay assignment is arbitrary,
which quantifies over every possible completion order. -/
def settleOrder (delays : Nat → Nat) (ts : List (Nat × ImportDeclaration)) :
    List (Nat × ImportDeclaration) :=
  ts.insertionSort (fun a b => delays a.1 ≤ delays b.1)

/-- The value a task's promise fulfills with (ignoring rejections). -/
def taskValue (shouldStripAt : Nat → ImportDeclaration → Except ε Bool)
    (t : Nat × ImportDeclaration) : Option ModuleItem :=
  match shouldStripAt t.1 t.2 with
  | Except.ok true => none
  | _ => some (ModuleItem.importDecl t.2)

/-- `Promise.all(body)`: the results array is positional — a plain entry
contributes itself, a task entry contributes the value it settled with,
looked up by its index in the settle log. -/
def gatherResults (body : List BodyEntry) (settled : List (Nat × Option ModuleItem)) :
    List (Option ModuleItem) :=
  body.map fun e =>
    match e with
    | Sum.inl item => some item
    | Sum.inr (i, _) =>
      match settled.find? (fun p => p.1 == i) with
      | some p => p.2
      | none => none

/-- Positional specification of the retained statement list: defined by
original position alone, with no reference to completion order. -/
def retainedSpecFrom (shouldStripAt : Nat → ImportDeclaration → Except ε Bool) :
    Nat → List ModuleItem → List ModuleItem
  | _, [] => []
  | n, ModuleItem.importDecl d :: rest =>
    if d.typeOnly then
      ModuleItem.importDecl d :: retainedSpecFrom shouldStripAt (n + 1) rest
    else
      match shouldStripAt n d with
      | Except.ok true => retainedSpecFrom shouldStripAt (n + 1) rest
      | _ => ModuleItem.importDecl d :: retainedSpecFrom shouldStripAt (n + 1) rest
  | n, ModuleItem.other s :: rest =>
    ModuleItem.other s :: retainedSpecFrom shouldStripAt (n + 1) rest

/-- The transform's non-null result.  `code` is the re-emitted statement
list (printing itself is the external printer's job); the two stripped
sets and the root-relative source name are returned alongside. -/
structure TransformResult where
  code : List ModuleItem
  strippedImportTargets : List String
  strippedImportSymbols : List String
  relativeSource : String
  deriving DecidableEq

/-- The per-file strip transform.  `mod` is the parsed body, `shouldStripAt`
the outcome of the caller predicate's invocation for the import at a given
body position (an oracle, so an arbitrary — possibly stateful — predicate
is covered), `delays` the completion delay of each decision promise.
Mirrors the source: scatter the decisions, join them (`Promise.all`),
abort on the first rejection, rebuild the body positionally, and report
`null` when `strippedImportSymbols.size === 0`. -/
def transform {ε : Type} (P : PathLib) (mod : List ModuleItem) (id root : String)
    (shouldStripAt : Nat → ImportDeclaration → Except ε Bool)
    (delays : Nat → Nat) : Except ε (Option TransformResult) :=
  let source := relativeToRoot P id root
  let body := scatterFrom 0 mod
  let ord := settleOrder delays (transformTasksFrom 0 mod)
  let st := ord.foldl (settleTask shouldStripAt) (initGatherState ε)
  match st.firstError with
  | some e => Except.error e
  | none =>
    let results := gatherResults body st.settled
    let newBody := results.filterMap (fun x => x)
    if st.strippedImportSymbols.length = 0 then Except.ok none
    else
      Except.ok (some
        { code := newBody
          strippedImportTargets := st.strippedImportTargets
          strippedImportSymbols := st.strippedImportSymbols
          relativeSource := source })

/-- The decision context handed to the predicate (its pure fields; the
lazy `resolvedTarget` accessor is modelled by `accessResolvedTarget`, and
`config` / `env` are opaque passthroughs). -/
structure ShouldStripContext where
  target : String
  source : String
  withObject : List (String × AttrValue)
  deriving DecidableEq

def mkShouldStripContext (P : PathLib) (d : ImportDeclaration) (id root : String) :
    ShouldStripContext :=
  { target := d.sourceValue
    source := relativeToRoot P id root
    withObject := getImportAttributes d }

/-- The contexts the transform passes to the predicate: one per decision
task, built in source order during the scatter loop. -/
def shouldStripCalls (P : PathLib) (mod : List ModuleItem) (id root : String) :
    List ShouldStripContext :=
  (transformTasksFrom 0 mod).map (fun t => mkShouldStripContext P t.2 id root)

/-- The hook's file filter `/\.(tsx?|jsx?|mts|mjs)$/.test(id)`: the id ends
in one of the six handled extensions. -/
def transformHookMatchesId (id : String) : Bool :=
  strEndsWith id ".ts" || strEndsWith id ".tsx" || strEndsWith id ".js" ||
    strEndsWith id ".jsx" || strEndsWith id ".mts" || strEndsWith id ".mjs"

/-- The Origin Registry `importSymbolsToSource`: an insertion-ordered map
from a stripped binding name to the module ids it was stripped from. -/
abbrev Registry := List (String × List String)

/-- `Map.get`. -/
def mapGet (m : Registry) (k : String) : Option (List String) :=
  (m.find? (fun p => p.1 == k)).map (fun p => p.2)

/-- `Map.set`: an existing key keeps its position, a new key is appended. -/
def mapSet (m : Registry) (k : String) (v : List String) : Registry :=
  if m.any (fun p => p.1 == k) then
    m.map (fun p => if p.1 == k then (k, v) else p)
  else m ++ [(k, v)]

/-- The hook's registry update: for each stripped binding name, push the
module id onto that name's origin list. -/
def updateRegistry (m : Registry) (names : List String) (id : String) : Registry :=
  names.foldl (fun m n => mapSet m n ((mapGet m n).getD [] ++ [id])) m

/-- Failures the transform hook can surface: the missing-config
precondition error, or a propagated predicate rejection. -/
inductive HookError (ε : Type) where
  | configNotResolved
  | predicateError (e : ε)
  deriving DecidableEq

/-- The plugin's `transform` hook.  Returns the (possibly updated) Origin
Registry, the list of predicate invocations made, and either an error or
the hook's result (`none` = leave the module untouched). -/
def pluginTransformHook {ε : Type} (P : PathLib) (configResolved : Bool) (st : Registry)
    (mod : List ModuleItem) (id root : String)
    (shouldStripAt : Nat → ImportDeclaration → Except ε Bool) (delays : Nat → Nat) :
    Registry × List ShouldStripContext × Except (HookError ε) (Option (List ModuleItem)) :=
  if configResolved = false then (st, [], Except.error HookError.configNotResolved)
  else if transformHookMatchesId id = false then (st, [], Except.ok none)
  else
    match transform P mod id root shouldStripAt delays with
    | Except.error e =>
      (st, shouldStripCalls P mod id root, Except.error (HookError.predicateError e))
    | Except.ok none => (st, shouldStripCalls P mod id root, Except.ok none)
    | Except.ok (some r) =>
      (updateRegistry st r.strippedImportSymbols id, shouldStripCalls P mod id root,
        Except.ok (some r.code))

/-- An undefined reference found by the free-variable analysis: the name
and the first occurrence's position. -/
structure UndefinedRef where
  name : String
  line : Option Nat
  column : Option Nat
  deriving DecidableEq

/-- A chunk's source-map payload, abstracted to what the verifier uses of
it: `originalPositionFor` on a built trace map, i.e. a partial localization
of a (line, column) to an original source name. -/
def SourceMap : Type := Nat → Nat → Option String

/-- A compiled output chunk, restricted to the fields the verifier reads. -/
structure OutputChunk where
  code : String
  moduleIds : List String
  map : Option SourceMap
  fileName : String

/-- A single-quote character, used by the verifier's message format. -/
def squote : String := String.singleton (Char.ofNat 39)

/-- The verifier's message template. -/
def strippedMessage (name : String) (origins : List String) : String :=
  "Stripped conditional import binding " ++ squote ++ name ++ squote ++
    " still in output (" ++ String.intercalate ", " origins ++ ")"

/-- Lexicographic comparison of character lists by code point. -/
def charListLe : List Char → List Char → Bool
  | [], _ => true
  | _ :: _, [] => false
  | a :: as, b :: bs =>
    if a.toNat < b.toNat then true
    else if b.toNat < a.toNat then false
    else charListLe as bs

/-- Lexicographic string order (the comparison JavaScript's default
`Array.prototype.sort()` applies to strings). -/
def strLe (a b : String) : Bool :=
  charListLe a.data b.data

/-- JavaScript `Array.prototype.sort()` on strings: lexicographic sort. -/
def sortStrings (l : List String) : List String :=
  l.insertionSort (fun a b => strLe a b = true)

/-- `outputDir ? errorSourceIds.map(id => relativeToRoot(id, root)) :
errorSourceIds`. -/
def renderOrigins (P : PathLib) (root : String) (outputDir : Option String)
    (ids : List String) : List String :=
  match outputDir with
  | some _ => ids.map (fun i => relativeToRoot P i root)
  | none => ids

/-- Source-map localization of one reference: needs the chunk to carry a
map and the reference to carry a position, and the trace-map lookup may
itself come back with a null source. -/
def localizeRef (chunk : OutputChunk) (r : UndefinedRef) : Option String :=
  match chunk.map, r.line, r.column with
  | some m, some l, some c => m l c
  | _, _, _ => none

/-- The body of `checkChunk`'s per-reference loop, factored as a function:
`none` when the reference is skipped, otherwise the message pushed. -/
def refMessage (P : PathLib) (chunk : OutputChunk) (reg : Registry) (root : String)
    (outputDir : Option String) (r : UndefinedRef) : Option String :=
  match mapGet reg r.name with
  | none => none
  | some sourceIds =>
    let relevantSourceIds := sourceIds.filter (fun i => chunk.moduleIds.contains i)
    if relevantSourceIds.length = 0 then none
    else
      let errorSourceIds :=
        match localizeRef chunk r with
        | some s => [s]
        | none => relevantSourceIds
      some (strippedMessage r.name (sortStrings (renderOrigins P root outputDir errorSourceIds)))

/-- Push one reference's message, when the reference produces one
(`errors.push(...)` guarded by the skip conditions of `refMessage`). -/
def pushRefError (P : PathLib) (chunk : OutputChunk) (reg : Registry) (root : String)
    (outputDir : Option String) (errors : List String) (r : UndefinedRef) : List String :=
  match refMessage P chunk reg root outputDir r with
  | none => errors
  | some msg => errors ++ [msg]

/-- `checkChunk`: run the free-variable analysis on the chunk's code and
collect one message per matching dangling reference, in discovery order. -/
def checkChunk (P : PathLib) (findUndefinedRefs : String → List UndefinedRef)
    (chunk : OutputChunk) (reg : Registry) (root : String) (outputDir : Option String) :
    List String :=
  let undefinedRefs := findUndefinedRefs chunk.code
  if undefinedRefs.length = 0 then []
  else undefinedRefs.foldl (pushRefError P chunk reg root outputDir) []

/-- One entry of the bundle: a code chunk or a non-code asset. -/
inductive BundleItem where
  | chunk (c : OutputChunk)
  | asset (fileName : String)

def bundleChunk : BundleItem → Option OutputChunk
  | BundleItem.chunk c => some c
  | BundleItem.asset _ => none

/-- Per-item step of the bundle loop: a code chunk appends its messages,
a non-code asset is skipped. -/
def pushChunkErrors (P : PathLib) (findUndefinedRefs : String → List UndefinedRef)
    (reg : Registry) (root : String) (outputDir : Option String)
    (errors : List String) : BundleItem → List String
  | BundleItem.chunk c => errors ++ checkChunk P findUndefinedRefs c reg root outputDir
  | BundleItem.asset _ => errors

/-- `checkBundle`: fast path on an empty registry, otherwise concatenate
every chunk's messages in bundle order, skipping assets. -/
def checkBundle (P : PathLib) (findUndefinedRefs : String → List UndefinedRef)
    (bundle : List BundleItem) (reg : Registry) (root : String)
    (outputDir : Option String) : List String :=
  if reg.length = 0 then []
  else bundle.foldl (pushChunkErrors P findUndefinedRefs reg root outputDir) []

/-- The plugin's `generateBundle` hook: raise one newline-joined fatal
error when the verifier found anything, otherwise stay silent. -/
def generateBundleError (P : PathLib) (findUndefinedRefs : String → List UndefinedRef)
    (configResolved : Bool) (bundle : List BundleItem) (reg : Registry)
    (root : String) (outputDir : Option String) : Option String :=
  if configResolved = false then none
  else
    let errors := checkBundle P findUndefinedRefs bundle reg root outputDir
    if errors.length > 0 then some (String.intercalate "\n" errors) else none

/-! ### Concrete instances used by witnesses and counterexamples -/

/-- A path library where both arguments of `relative` collapse to the file
path itself: `relativeToRoot` becomes the identity for names that do not
start with `..`. -/
def trivialPathLib : PathLib :=
  { relative := fun _ p => p
    isAbsolute := fun _ => false
    normalizePath := fun p => p }

def wImportDev : ImportDeclaration :=
  { typeOnly := false, sourceValue := "./devOnly", specifiers := [⟨"debug"⟩],
    withClause := none, asserts := none }

def wImportUtil : ImportDeclaration :=
  { typeOnly := false, sourceValue := "./util", specifiers := [⟨"util"⟩],
    withClause := none, asserts := none }

def wTypeOnlyImport : ImportDeclaration :=
  { typeOnly := true, sourceValue := "./devOnly", specifiers := [⟨"DevType"⟩],
    withClause := none, asserts := none }

/-- A bare side-effect import (no bound names) carrying an attribute. -/
def wBareImport : ImportDeclaration :=
  { typeOnly := false, sourceValue := "./sideEffect", specifiers := [],
    withClause := some ⟨[⟨some "only", some (AttrValue.str "dev")⟩]⟩, asserts := none }

def wMod : List ModuleItem :=
  [ModuleItem.importDecl wImportDev, ModuleItem.other "console.log(1)",
    ModuleItem.importDecl wImportUtil]

def wStrip : Nat → ImportDeclaration → Except String Bool :=
  fun i _ => Except.ok (i == 0)

def wDelays : Nat → Nat := fun i => 10 - i

def wResult : TransformResult :=
  { code := [ModuleItem.other "console.log(1)", ModuleItem.importDecl wImportUtil]
    strippedImportTargets := ["./devOnly"]
    strippedImportSymbols := ["debug"]
    relativeSource := "index.ts" }

def w2Strip : Nat → ImportDeclaration → Except String Bool :=
  fun _ _ => Except.error "boom"

def w3Strip : Nat → ImportDeclaration → Except String Bool :=
  fun _ _ => Except.ok false

def w7Mod : List ModuleItem :=
  [ModuleItem.importDecl wTypeOnlyImport, ModuleItem.importDecl wImportDev,
    ModuleItem.other "x"]

def w7Strip : Nat → ImportDeclaration → Except String Bool :=
  fun _ _ => Except.ok true

def w7Result : TransformResult :=
  { code := [ModuleItem.importDecl wTypeOnlyImport, ModuleItem.other "x"]
    strippedImportTargets := ["./devOnly"]
    strippedImportSymbols := ["debug"]
    relativeSource := "index.ts" }

def cxMod : List ModuleItem := [ModuleItem.importDecl wBareImport]

def cxStrip : Nat → ImportDeclaration → Except String Bool :=
  fun _ _ => Except.ok true

def wWithObj : ObjectExpression :=
  ⟨[⟨some "only", some (AttrValue.str "dev")⟩, ⟨none, some (AttrValue.boolVal true)⟩]⟩

def wAssertObj : ObjectExpression := ⟨[⟨some "legacy", some (AttrValue.str "yes")⟩]⟩

def wNodeBoth : ImportDeclaration :=
  { typeOnly := false, sourceValue := "x", specifiers := [],
    withClause := some wWithObj, asserts := some wAssertObj }

def wNodeNeither : ImportDeclaration :=
  { typeOnly := false, sourceValue := "x", specifiers := [],
    withClause := none, asserts := none }

def cxRefDev : UndefinedRef := { name := "devOnly", line := some 1, column := some 1 }

def cxFindRefs : String → List UndefinedRef := fun _ => [cxRefDev]

def cxChunkDup : OutputChunk :=
  { code := "", moduleIds := ["a.ts"], map := none, fileName := "chunk.js" }

def cxRegDup : Registry := [("devOnly", ["a.ts", "a.ts"])]

def wMapA : SourceMap := fun l c => if l == 1 && c == 1 then some "srcA.ts" else none

def wRefDebug : UndefinedRef := { name := "debug", line := some 1, column := some 1 }

def wFindRefs : String → List UndefinedRef := fun _ => [wRefDebug]

def wChunkMap : OutputChunk :=
  { code := "", moduleIds := ["A", "B"], map := some wMapA, fileName := "c.js" }

def wRegAB : Registry := [("debug", ["A", "B"])]

/-! ### Helper lemmas -/

lemma mem_insertSet (l : List String) (x y : String) :
    y ∈ insertSet l x ↔ y ∈ l ∨ y = x := by
  unfold insertSet
  by_cases h : x ∈ l
  · simp only [if_pos h]
    exact ⟨Or.inl, fun h2 => h2.elim id (fun he => he ▸ h)⟩
  · simp [if_neg h]

lemma mem_addSymbols (specs : List Specifier) :
    ∀ (acc : List String) (x : String),
      x ∈ addSymbols acc specs ↔ x ∈ acc ∨ x ∈ specs.map Specifier.localValue := by
  induction specs with
  | nil => intro acc x; simp [addSymbols]
  | cons s rest ih =>
    intro acc x
    have : addSymbols acc (s :: rest) = addSymbols (insertSet acc s.localValue) rest := rfl
    rw [this, ih, mem_insertSet]
    simp
    tauto

lemma attrs_foldl_filterMap (l : List Property) :
    ∀ acc : List (String × AttrValue),
      l.foldl
        (fun out attr =>
          match getKey attr, getVal attr with
          | some k, some v => recordSet out k v
          | _, _ => out) acc
      = (l.filterMap fun attr =>
          match getKey attr, getVal attr with
          | some k, some v => some (k, v)
          | _, _ => none).foldl (fun out kv => recordSet out kv.1 kv.2) acc := by
  induction l with
  | nil => intro acc; rfl
  | cons a rest ih =>
    intro acc
    cases hk : getKey a <;> cases hv : getVal a <;>
      simp only [List.foldl_cons, List.filterMap_cons, hk, hv] <;> rw [ih]

/-- C9: the attribute extractor reads the `with` clause when present
(taking precedence over `assert`), falls back to the legacy `assert`
clause, yields the empty mapping when neither is present, and silently
omits every entry whose key or value carries no literal value — it is a
total function and never raises an error. -/
theorem c9_attribute_extractor (n : ImportDeclaration) :
    (∀ w, n.withClause = some w → getWithObject n = some w)
    ∧ (n.withClause = none → getWithObject n = n.asserts)
    ∧ (n.withClause = none → n.asserts = none → getImportAttributes n = [])
    ∧ getImportAttributes n =
        ((getAttrList n).filterMap fun attr =>
          match getKey attr, getVal attr with
          | some k, some v => some (k, v)
          | _, _ => none).foldl (fun out kv => recordSet out kv.1 kv.2) [] := by
  refine ⟨?_, ?_, ?_, ?_⟩
  · intro w hw; simp [getWithObject, hw]
  · intro hw; cases ha : n.asserts <;> simp [getWithObject, hw, ha]
  · intro hw ha; simp [getImportAttributes, getAttrList, getWithObject, hw, ha]
  · exact attrs_foldl_filterMap (getAttrList n) []

/-- Witness for C9 at concrete import declarations: `with` wins over
`assert` when both are present, both absent give the empty mapping, and
the non-literal entry of `wWithObj` is dropped. -/
theorem c9_witness :
    getWithObject wNodeBoth = some wWithObj
    ∧ getImportAttributes wNodeNeither = []
    ∧ getImportAttributes wNodeBoth = [("only", AttrValue.str "dev")] :=
  ⟨(c9_attribute_extractor wNodeBoth).1 wWithObj rfl,
   (c9_attribute_extractor wNodeNeither).2.2.1 rfl rfl,
   ((c9_attribute_extractor wNodeBoth).2.2.2).trans (by decide)⟩

/-- Invariant of the resolver state: the call log is exactly the cache's
key sequence, and no specifier is cached twice. -/
def goodResolveState (s : ResolveState) : Prop :=
  s.resolveLog = s.resolveCache.map Prod.fst ∧ (s.resolveCache.map Prod.fst).Nodup

lemma goodResolveState_init : goodResolveState initResolveState := by
  constructor <;> simp [initResolveState]

lemma access_good {s : ResolveState} (h : goodResolveState s) (t : String) :
    goodResolveState (accessResolvedTarget s t).1 := by
  unfold accessResolvedTarget
  cases hf : s.resolveCache.find? (fun p => p.1 == t) with
  | some p => exact h
  | none =>
    have ht : t ∉ s.resolveCache.map Prod.fst := by
      intro hmem
      obtain ⟨q, hq, hq1⟩ := List.mem_map.mp hmem
      have := List.find?_eq_none.mp hf q hq
      simp [hq1] at this
    constructor
    · simp [h.1]
    · rw [List.map_append]
      exact List.Nodup.append h.2 (List.nodup_singleton t)
        (fun x hx hx2 => by simp at hx2; exact ht (hx2 ▸ hx))

lemma access_of_lookup_some (s : ResolveState) (t : String) (p : Nat)
    (h : cacheLookup s t = some p) : accessResolvedTarget s t = (s, p) := by
  unfold cacheLookup at h
  unfold accessResolvedTarget
  cases hf : s.resolveCache.find? (fun q => q.1 == t) with
  | none => rw [hf] at h; simp at h
  | some q => rw [hf] at h; simp at h; simp [h]

lemma access_lookup_self (s : ResolveState) (t : String) :
    cacheLookup (accessResolvedTarget s t).1 t = some (accessResolvedTarget s t).2 := by
  unfold accessResolvedTarget cacheLookup
  cases hf : s.resolveCache.find? (fun p => p.1 == t) with
  | some p => simp [hf]
  | none => simp [hf, List.find?_append]

lemma access_lookup_mono (s : ResolveState) (t k : String) (p : Nat)
    (h : cacheLookup s k = some p) :
    cacheLookup (accessResolvedTarget s t).1 k = some p := by
  unfold accessResolvedTarget
  cases hf : s.resolveCache.find? (fun q => q.1 == t) with
  | some q => exact h
  | none =>
    unfold cacheLookup at h ⊢
    obtain ⟨q0, hq0, hq2⟩ : ∃ q0, s.resolveCache.find? (fun q => q.1 == k) = some q0 ∧ q0.2 = p := by
      cases hg : s.resolveCache.find? (fun q => q.1 == k) with
      | none => rw [hg] at h; simp at h
      | some q0 => rw [hg] at h; simp at h; exact ⟨q0, rfl, h⟩
    simp [List.find?_append, hq0, hq2]

lemma run_lookup_mono (accs : List String) :
    ∀ (s : ResolveState) (k : String) (p : Nat), cacheLookup s k = some p →
      cacheLookup (runAccesses s accs).1 k = some p := by
  induction accs with
  | nil => intro s k p h; exact h
  | cons t rest ih =>
    intro s k p h
    exact ih (accessResolvedTarget s t).1 k p (access_lookup_mono s t k p h)

lemma run_ids (accs : List String) :
    ∀ s : ResolveState,
      (runAccesses s accs).2
        = accs.map (fun a => (cacheLookup (runAccesses s accs).1 a).getD 0) := by
  induction accs with
  | nil => intro s; rfl
  | cons t rest ih =>
    intro s
    show (accessResolvedTarget s t).2 :: (runAccesses (accessResolvedTarget s t).1 rest).2 = _
    rw [List.map_cons]
    congr 1
    · have h1 := access_lookup_self s t
      have h2 := run_lookup_mono rest (accessResolvedTarget s t).1 t
        (accessResolvedTarget s t).2 h1
      show _ = (cacheLookup (runAccesses (accessResolvedTarget s t).1 rest).1 t).getD 0
      rw [h2]; rfl
    · exact ih (accessResolvedTarget s t).1

lemma run_good (accs : List String) :
    ∀ s : ResolveState, goodResolveState s → goodResolveState (runAccesses s accs).1 := by
  induction accs with
  | nil => intro s h; exact h
  | cons t rest ih => intro s h; exact ih _ (access_good h t)

lemma access_log_mem (s : ResolveState) (hg : goodResolveState s) (t x : String) :
    x ∈ (accessResolvedTarget s t).1.resolveLog ↔ x ∈ s.resolveLog ∨ x = t := by
  unfold accessResolvedTarget
  cases hf : s.resolveCache.find? (fun p => p.1 == t) with
  | some p =>
    have ht : t ∈ s.resolveLog := by
      rw [hg.1]
      have hp := List.find?_some hf
      have hmem := List.mem_of_find?_eq_some hf
      exact List.mem_map.mpr ⟨p, hmem, by simpa using hp⟩
    simp only []
    exact ⟨Or.inl, fun h => h.elim id (fun he => he ▸ ht)⟩
  | none => simp

lemma run_log_mem (accs : List String) :
    ∀ (s : ResolveState), goodResolveState s → ∀ x : String,
      x ∈ (runAccesses s accs).1.resolveLog ↔ x ∈ s.resolveLog ∨ x ∈ accs := by
  induction accs with
  | nil => intro s hg x; simp [runAccesses]
  | cons t rest ih =>
    intro s hg x
    show x ∈ (runAccesses (accessResolvedTarget s t).1 rest).1.resolveLog ↔ _
    rw [ih _ (access_good hg t) x, access_log_mem s hg t x]
    simp
    tauto

/-- C6: the `resolvedTarget` accessor is lazy and memoized per specifier
text.  For any access sequence a file's transform performs: the external
resolution service is called exactly once for an accessed specifier and
never for an unaccessed one (the call log counts it `1` or `0`); every
access returns the promise the final cache holds for its specifier, so
repeated accesses of the same specifier return the same shared promise;
and re-running the accessor immediately is the identity. -/
theorem c6_lazy_memoized_resolver (accs : List String) (t : String) :
    ((runAccesses initResolveState accs).1.resolveLog.count t
      = if t ∈ accs then 1 else 0)
    ∧ (runAccesses initResolveState accs).2
        = accs.map (fun a => (cacheLookup (runAccesses initResolveState accs).1 a).getD 0)
    ∧ ∀ s : ResolveState,
        accessResolvedTarget (accessResolvedTarget s t).1 t = accessResolvedTarget s t := by
  refine ⟨?_, run_ids accs initResolveState, ?_⟩
  · have hg := run_good accs initResolveState goodResolveState_init
    have hmem := run_log_mem accs initResolveState goodResolveState_init t
    have hnd : (runAccesses initResolveState accs).1.resolveLog.Nodup := by
      rw [hg.1]; exact hg.2
    by_cases h : t ∈ accs
    · rw [if_pos h]
      exact List.count_eq_one_of_mem hnd
        (hmem.mpr (Or.inr h))
    · rw [if_neg h]
      exact List.count_eq_zero.mpr
        (fun hc => by rcases hmem.mp hc with h2 | h2
                      · simp [initResolveState] at h2
                      · exact h h2)
  · intro s
    have h1 := access_lookup_self s t
    rw [access_of_lookup_some _ _ _ h1]

/-! ### Transform lemmas -/

lemma tasks_nil (n : Nat) : transformTasksFrom n [] = [] := rfl

lemma tasks_cons_other (n : Nat) (s : String) (rest : List ModuleItem) :
    transformTasksFrom n (ModuleItem.other s :: rest) = transformTasksFrom (n + 1) rest := rfl

lemma tasks_cons_typeOnly (n : Nat) (d : ImportDeclaration) (rest : List ModuleItem)
    (h : d.typeOnly = true) :
    transformTasksFrom n (ModuleItem.importDecl d :: rest) = transformTasksFrom (n + 1) rest := by
  simp [transformTasksFrom, scatterFrom, h, entryTask]

lemma tasks_cons_import (n : Nat) (d : ImportDeclaration) (rest : List ModuleItem)
    (h : d.typeOnly = false) :
    transformTasksFrom n (ModuleItem.importDecl d :: rest)
      = (n, d) :: transformTasksFrom (n + 1) rest := by
  simp [transformTasksFrom, scatterFrom, h, entryTask]

lemma tasks_ge (l : List ModuleItem) :
    ∀ (n : Nat) (t : Nat × ImportDeclaration), t ∈ transformTasksFrom n l → n ≤ t.1 := by
  induction l with
  | nil => intro n t ht; rw [tasks_nil] at ht; cases ht
  | cons a rest ih =>
    intro n t ht
    cases a with
    | other s =>
      rw [tasks_cons_other] at ht
      exact le_trans (Nat.le_succ n) (ih (n + 1) t ht)
    | importDecl d =>
      by_cases hty : d.typeOnly = true
      · rw [tasks_cons_typeOnly n d rest hty] at ht
        exact le_trans (Nat.le_succ n) (ih (n + 1) t ht)
      · rw [tasks_cons_import n d rest (by simpa using hty)] at ht
        rcases List.mem_cons.mp ht with h | h
        · subst h; exact le_refl n
        · exact le_trans (Nat.le_succ n) (ih (n + 1) t h)

lemma tasks_typeOnly_false (l : List ModuleItem) :
    ∀ (n : Nat) (t : Nat × ImportDeclaration), t ∈ transformTasksFrom n l →
      t.2.typeOnly = false := by
  induction l with
  | nil => intro n t ht; rw [tasks_nil] at ht; cases ht
  | cons a rest ih =>
    intro n t ht
    cases a with
    | other s => rw [tasks_cons_other] at ht; exact ih (n + 1) t ht
    | importDecl d =>
      by_cases hty : d.typeOnly = true
      · rw [tasks_cons_typeOnly n d rest hty] at ht; exact ih (n + 1) t ht
      · rw [tasks_cons_import n d rest (by simpa using hty)] at ht
        rcases List.mem_cons.mp ht with h | h
        · subst h; simpa using hty
        · exact ih (n + 1) t h

lemma tasks_pairwise (l : List ModuleItem) :
    ∀ n : Nat, (transformTasksFrom n l).Pairwise (fun a b => a.1 < b.1) := by
  induction l with
  | nil => intro n; rw [tasks_nil]; exact List.Pairwise.nil
  | cons a rest ih =>
    intro n
    cases a with
    | other s => rw [tasks_cons_other]; exact ih (n + 1)
    | importDecl d =>
      by_cases hty : d.typeOnly = true
      · rw [tasks_cons_typeOnly n d rest hty]; exact ih (n + 1)
      · rw [tasks_cons_import n d rest (by simpa using hty)]
        refine List.Pairwise.cons ?_ (ih (n + 1))
        intro t ht
        exact lt_of_lt_of_le (Nat.lt_succ_self n) (tasks_ge rest (n + 1) t ht)

lemma tasks_keys_nodup (l : List ModuleItem) (n : Nat) :
    ((transformTasksFrom n l).map Prod.fst).Nodup := by
  have h := List.Pairwise.map Prod.fst (fun a b hab => hab) (tasks_pairwise l n)
  exact h.imp (fun hab => Nat.ne_of_lt hab)

lemma settled_find (v : Nat × ImportDeclaration → Option ModuleItem) :
    ∀ (l : List (Nat × ImportDeclaration)) (i : Nat) (d : ImportDeclaration),
      (l.map Prod.fst).Nodup → (i, d) ∈ l →
      (l.map (fun t => (t.1, v t))).find? (fun p => p.1 == i) = some (i, v (i, d)) := by
  intro l
  induction l with
  | nil => intro i d hnd hmem; cases hmem
  | cons a rest ih =>
    intro i d hnd hmem
    rw [List.map_cons] at hnd
    by_cases hai : a.1 = i
    · have ha : a = (i, d) := by
        rcases List.mem_cons.mp hmem with h | h
        · exact h.symm
        · exfalso
          have : i ∈ rest.map Prod.fst := List.mem_map.mpr ⟨(i, d), h, rfl⟩
          exact (List.nodup_cons.mp hnd).1 (hai ▸ this)
      subst ha
      rw [List.map_cons]
      rw [List.find?_cons_of_pos _ (by simp [hai])]
    · have hmem2 : (i, d) ∈ rest := by
        rcases List.mem_cons.mp hmem with h | h
        · exact absurd (congrArg Prod.fst h).symm hai
        · exact h
      rw [List.map_cons]
      rw [List.find?_cons_of_neg _ (by simp [hai])]
      exact ih i d (List.nodup_cons.mp hnd).2 hmem2

lemma foldl_settle_firstError_ok {ε : Type}
    (shouldStripAt : Nat → ImportDeclaration → Except ε Bool) :
    ∀ (l : List (Nat × ImportDeclaration)) (st : GatherState ε),
      (∀ t ∈ l, ∃ b, shouldStripAt t.1 t.2 = Except.ok b) →
      (l.foldl (settleTask shouldStripAt) st).firstError = st.firstError := by
  intro l
  induction l with
  | nil => intro st h; rfl
  | cons a rest ih =>
    intro st h
    obtain ⟨b, hb⟩ := h a (List.mem_cons_self a rest)
    have hrest : ∀ t ∈ rest, ∃ b, shouldStripAt t.1 t.2 = Except.ok b :=
      fun t ht => h t (List.mem_cons_of_mem a ht)
    rw [List.foldl_cons, ih _ hrest]
    cases b <;> simp [settleTask, hb]

lemma foldl_settle_firstError_mono {ε : Type}
    (shouldStripAt : Nat → ImportDeclaration → Except ε Bool) :
    ∀ (l : List (Nat × ImportDeclaration)) (st : GatherState ε) (e : ε),
      st.firstError = some e →
      (l.foldl (settleTask shouldStripAt) st).firstError = some e := by
  intro l
  induction l with
  | nil => intro st e h; exact h
  | cons a rest ih =>
    intro st e h
    rw [List.foldl_cons]
    refine ih _ e ?_
    cases hd : shouldStripAt a.1 a.2 with
    | error e2 => simp [settleTask, hd, h]
    | ok b => cases b <;> simp [settleTask, hd, h]

lemma foldl_settle_ok_of_none {ε : Type}
    (shouldStripAt : Nat → ImportDeclaration → Except ε Bool) :
    ∀ (l : List (Nat × ImportDeclaration)) (st : GatherState ε),
      (l.foldl (settleTask shouldStripAt) st).firstError = none →
      ∀ t ∈ l, ∃ b, shouldStripAt t.1 t.2 = Except.ok b := by
  intro l
  induction l with
  | nil => intro st h t ht; cases ht
  | cons a rest ih =>
    intro st h t ht
    rw [List.foldl_cons] at h
    cases hd : shouldStripAt a.1 a.2 with
    | error e =>
      exfalso
      have hsome : (settleTask shouldStripAt st a).firstError ≠ none := by
        cases hfe : st.firstError <;> simp [settleTask, hd, hfe]
      cases hfe2 : (settleTask shouldStripAt st a).firstError with
      | none => exact hsome hfe2
      | some e2 =>
        rw [foldl_settle_firstError_mono shouldStripAt rest _ e2 hfe2] at h
        cases h
    | ok b =>
      rcases List.mem_cons.mp ht with hh | hh
      · subst hh; exact ⟨b, hd⟩
      · exact ih _ h t hh

lemma foldl_settle_firstError_some {ε : Type}
    (shouldStripAt : Nat → ImportDeclaration → Except ε Bool) (e : ε) :
    ∀ (l : List (Nat × ImportDeclaration)) (st : GatherState ε),
      (∀ t ∈ l, ∀ e2, shouldStripAt t.1 t.2 = Except.error e2 → e2 = e) →
      (∃ t ∈ l, ∃ e2, shouldStripAt t.1 t.2 = Except.error e2) →
      st.firstError = none →
      (l.foldl (settleTask shouldStripAt) st).firstError = some e := by
  intro l
  induction l with
  | nil => intro st hu he hfe; obtain ⟨t, ht, _⟩ := he; cases ht
  | cons a rest ih =>
    intro st hu he hfe
    rw [List.foldl_cons]
    cases hd : shouldStripAt a.1 a.2 with
    | error e2 =>
      have he2 : e2 = e := hu a (List.mem_cons_self a rest) e2 hd
      subst he2
      refine foldl_settle_firstError_mono shouldStripAt rest _ e2 ?_
      simp [settleTask, hd, hfe]
    | ok b =>
      have hst : (settleTask shouldStripAt st a).firstError = none := by
        cases b <;> simp [settleTask, hd, hfe]
      refine ih _ (fun t ht => hu t (List.mem_cons_of_mem a ht)) ?_ hst
      obtain ⟨t, ht, e2, he2⟩ := he
      rcases List.mem_cons.mp ht with hh | hh
      · subst hh; rw [hd] at he2; cases he2
      · exact ⟨t, hh, e2, he2⟩

lemma foldl_settle_settled {ε : Type}
    (shouldStripAt : Nat → ImportDeclaration → Except ε Bool) :
    ∀ (l : List (Nat × ImportDeclaration)) (st : GatherState ε),
      (∀ t ∈ l, ∃ b, shouldStripAt t.1 t.2 = Except.ok b) →
      (l.foldl (settleTask shouldStripAt) st).settled
        = st.settled ++ l.map (fun t => (t.1, taskValue shouldStripAt t)) := by
  intro l
  induction l with
  | nil => intro st h; simp
  | cons a rest ih =>
    intro st h
    obtain ⟨b, hb⟩ := h a (List.mem_cons_self a rest)
    rw [List.foldl_cons, ih _ (fun t ht => h t (List.mem_cons_of_mem a ht))]
    cases b <;> simp [settleTask, hb, taskValue]

lemma foldl_settle_symbols {ε : Type}
    (shouldStripAt : Nat → ImportDeclaration → Except ε Bool) :
    ∀ (l : List (Nat × ImportDeclaration)) (st : GatherState ε) (x : String),
      x ∈ (l.foldl (settleTask shouldStripAt) st).strippedImportSymbols ↔
        x ∈ st.strippedImportSymbols
        ∨ ∃ t ∈ l, shouldStripAt t.1 t.2 = Except.ok true
            ∧ x ∈ t.2.specifiers.map Specifier.localValue := by
  intro l
  induction l with
  | nil => intro st x; simp
  | cons a rest ih =>
    intro st x
    rw [List.foldl_cons, ih]
    cases hd : shouldStripAt a.1 a.2 with
    | error e => simp [settleTask, hd]
    | ok b =>
      cases b with
      | false => simp [settleTask, hd]
      | true =>
        simp only [settleTask, hd]
        rw [mem_addSymbols]
        constructor
        · rintro ((hx | hx) | ⟨t, ht, h1, h2⟩)
          · exact Or.inl hx
          · exact Or.inr ⟨a, List.mem_cons_self a rest, hd, hx⟩
          · exact Or.inr ⟨t, List.mem_cons_of_mem a ht, h1, h2⟩
        · rintro (hx | ⟨t, ht, h1, h2⟩)
          · exact Or.inl (Or.inl hx)
          · rcases List.mem_cons.mp ht with hh | hh
            · subst hh; exact Or.inl (Or.inr h2)
            · exact Or.inr ⟨t, hh, h1, h2⟩

lemma retained_cons_other {ε : Type} (shouldStripAt : Nat → ImportDeclaration → Except ε Bool)
    (n : Nat) (s : String) (rest : List ModuleItem) :
    retainedSpecFrom shouldStripAt n (ModuleItem.other s :: rest)
      = ModuleItem.other s :: retainedSpecFrom shouldStripAt (n + 1) rest := rfl

lemma retained_cons_typeOnly {ε : Type} (shouldStripAt : Nat → ImportDeclaration → Except ε Bool)
    (n : Nat) (d : ImportDeclaration) (rest : List ModuleItem) (h : d.typeOnly = true) :
    retainedSpecFrom shouldStripAt n (ModuleItem.importDecl d :: rest)
      = ModuleItem.importDecl d :: retainedSpecFrom shouldStripAt (n + 1) rest := by
  simp [retainedSpecFrom, h]

lemma retained_cons_strip {ε : Type} (shouldStripAt : Nat → ImportDeclaration → Except ε Bool)
    (n : Nat) (d : ImportDeclaration) (rest : List ModuleItem) (h : d.typeOnly = false)
    (hd : shouldStripAt n d = Except.ok true) :
    retainedSpecFrom shouldStripAt n (ModuleItem.importDecl d :: rest)
      = retainedSpecFrom shouldStripAt (n + 1) rest := by
  simp [retainedSpecFrom, h, hd]

lemma retained_cons_keep {ε : Type} (shouldStripAt : Nat → ImportDeclaration → Except ε Bool)
    (n : Nat) (d : ImportDeclaration) (rest : List ModuleItem) (h : d.typeOnly = false)
    (hd : taskValue shouldStripAt (n, d) = some (ModuleItem.importDecl d)) :
    retainedSpecFrom shouldStripAt n (ModuleItem.importDecl d :: rest)
      = ModuleItem.importDecl d :: retainedSpecFrom shouldStripAt (n + 1) rest := by
  unfold taskValue at hd
  cases hds : shouldStripAt n d with
  | error e => simp [retainedSpecFrom, h, hds]
  | ok b =>
    cases b with
    | false => simp [retainedSpecFrom, h, hds]
    | true => rw [hds] at hd; simp [taskValue] at hd

lemma scatter_cons_typeOnly (n : Nat) (d : ImportDeclaration) (rest : List ModuleItem)
    (h : d.typeOnly = true) :
    scatterFrom n (ModuleItem.importDecl d :: rest)
      = Sum.inl (ModuleItem.importDecl d) :: scatterFrom (n + 1) rest := by
  simp [scatterFrom, h]

lemma scatter_cons_import (n : Nat) (d : ImportDeclaration) (rest : List ModuleItem)
    (h : d.typeOnly = false) :
    scatterFrom n (ModuleItem.importDecl d :: rest)
      = Sum.inr (n, d) :: scatterFrom (n + 1) rest := by
  simp [scatterFrom, h]

lemma gather_cons_inl (item : ModuleItem) (body : List BodyEntry)
    (settled : List (Nat × Option ModuleItem)) :
    (gatherResults (Sum.inl item :: body) settled).filterMap (fun x => x)
      = item :: (gatherResults body settled).filterMap (fun x => x) := rfl

lemma gather_cons_inr_some (i : Nat) (d : ImportDeclaration) (body : List BodyEntry)
    (settled : List (Nat × Option ModuleItem)) (item : ModuleItem)
    (h : settled.find? (fun p => p.1 == i) = some (i, some item)) :
    (gatherResults (Sum.inr (i, d) :: body) settled).filterMap (fun x => x)
      = item :: (gatherResults body settled).filterMap (fun x => x) := by
  show ((match settled.find? (fun p => p.1 == i) with
        | some p => p.2
        | none => none)
      :: gatherResults body settled).filterMap (fun x => x) = _
  rw [h]
  rfl

lemma gather_cons_inr_none (i : Nat) (d : ImportDeclaration) (body : List BodyEntry)
    (settled : List (Nat × Option ModuleItem))
    (h : settled.find? (fun p => p.1 == i) = some (i, none)) :
    (gatherResults (Sum.inr (i, d) :: body) settled).filterMap (fun x => x)
      = (gatherResults body settled).filterMap (fun x => x) := by
  show ((match settled.find? (fun p => p.1 == i) with
        | some p => p.2
        | none => none)
      :: gatherResults body settled).filterMap (fun x => x) = _
  rw [h]
  rfl

lemma gather_retained {ε : Type}
    (shouldStripAt : Nat → ImportDeclaration → Except ε Bool)
    (settled : List (Nat × Option ModuleItem)) :
    ∀ (l : List ModuleItem) (n : Nat),
      (∀ i d, (i, d) ∈ transformTasksFrom n l →
        settled.find? (fun p => p.1 == i) = some (i, taskValue shouldStripAt (i, d))) →
      (gatherResults (scatterFrom n l) settled).filterMap (fun x => x)
        = retainedSpecFrom shouldStripAt n l := by
  intro l
  induction l with
  | nil => intro n h; rfl
  | cons a rest ih =>
    intro n h
    cases a with
    | other s =>
      have hrest := ih (n + 1) (fun i d hm => h i d (by rw [tasks_cons_other]; exact hm))
      show (gatherResults (Sum.inl (ModuleItem.other s) :: scatterFrom (n + 1) rest)
          settled).filterMap (fun x => x) = _
      rw [gather_cons_inl, retained_cons_other]
      exact congrArg _ hrest
    | importDecl d =>
      by_cases hty : d.typeOnly = true
      · have hrest := ih (n + 1)
          (fun i d2 hm => h i d2 (by rw [tasks_cons_typeOnly n d rest hty]; exact hm))
        rw [scatter_cons_typeOnly n d rest hty, gather_cons_inl,
          retained_cons_typeOnly shouldStripAt n d rest hty]
        exact congrArg _ hrest
      · have hty2 : d.typeOnly = false := by simpa using hty
        have hrest := ih (n + 1)
          (fun i d2 hm => h i d2 (by
            rw [tasks_cons_import n d rest hty2]; exact List.mem_cons_of_mem _ hm))
        have hfind := h n d (by
          rw [tasks_cons_import n d rest hty2]; exact List.mem_cons_self _ _)
        rw [scatter_cons_import n d rest hty2]
        cases hv : taskValue shouldStripAt (n, d) with
        | none =>
          rw [hv] at hfind
          have hd : shouldStripAt n d = Except.ok true := by
            unfold taskValue at hv
            cases hds : shouldStripAt n d with
            | error e => rw [hds] at hv; cases hv
            | ok b =>
              cases b with
              | false => rw [hds] at hv; cases hv
              | true => rfl
          rw [gather_cons_inr_none n d _ settled hfind,
            retained_cons_strip shouldStripAt n d rest hty2 hd]
          exact hrest
        | some item =>
          rw [hv] at hfind
          have hitem : item = ModuleItem.importDecl d := by
            unfold taskValue at hv
            cases hds : shouldStripAt n d with
            | error e => rw [hds] at hv; cases hv; rfl
            | ok b =>
              cases b with
              | false => rw [hds] at hv; cases hv; rfl
              | true => rw [hds] at hv; cases hv
          subst hitem
          rw [gather_cons_inr_some n d _ settled _ hfind,
            retained_cons_keep shouldStripAt n d rest hty2 hv]
          exact congrArg _ hrest

/-- The gather state a file's transform ends in, for a given decision
oracle and completion-delay assignment. -/
def gatherStateOf {ε : Type} (shouldStripAt : Nat → ImportDeclaration → Except ε Bool)
    (mod : List ModuleItem) (delays : Nat → Nat) : GatherState ε :=
  (settleOrder delays (transformTasksFrom 0 mod)).foldl (settleTask shouldStripAt)
    (initGatherState ε)

lemma settleOrder_perm (delays : Nat → Nat) (ts : List (Nat × ImportDeclaration)) :
    List.Perm (settleOrder delays ts) ts :=
  List.perm_insertionSort _ ts

lemma transform_eq {ε : Type} (P : PathLib) (mod : List ModuleItem) (id root : String)
    (shouldStripAt : Nat → ImportDeclaration → Except ε Bool) (delays : Nat → Nat) :
    transform P mod id root shouldStripAt delays
      = (match (gatherStateOf shouldStripAt mod delays).firstError with
         | some e => Except.error e
         | none =>
           if (gatherStateOf shouldStripAt mod delays).strippedImportSymbols.length = 0
           then Except.ok none
           else Except.ok (some
             { code := (gatherResults (scatterFrom 0 mod)
                 (gatherStateOf shouldStripAt mod delays).settled).filterMap (fun x => x)
               strippedImportTargets :=
                 (gatherStateOf shouldStripAt mod delays).strippedImportTargets
               strippedImportSymbols :=
                 (gatherStateOf shouldStripAt mod delays).strippedImportSymbols
               relativeSource := relativeToRoot P id root })) := rfl

lemma gatherState_none_ok {ε : Type} (shouldStripAt : Nat → ImportDeclaration → Except ε Bool)
    (mod : List ModuleItem) (delays : Nat → Nat)
    (h : (gatherStateOf shouldStripAt mod delays).firstError = none) :
    ∀ t ∈ transformTasksFrom 0 mod, ∃ b, shouldStripAt t.1 t.2 = Except.ok b :=
  fun t ht =>
    foldl_settle_ok_of_none shouldStripAt _ _ h t
      ((settleOrder_perm delays (transformTasksFrom 0 mod)).mem_iff.mpr ht)

lemma gatherState_none_of_ok {ε : Type} (shouldStripAt : Nat → ImportDeclaration → Except ε Bool)
    (mod : List ModuleItem) (delays : Nat → Nat)
    (hok : ∀ t ∈ transformTasksFrom 0 mod, ∃ b, shouldStripAt t.1 t.2 = Except.ok b) :
    (gatherStateOf shouldStripAt mod delays).firstError = none :=
  foldl_settle_firstError_ok shouldStripAt _ _
    (fun t ht => hok t ((settleOrder_perm delays (transformTasksFrom 0 mod)).mem_iff.mp ht))

lemma gatherState_find {ε : Type} (shouldStripAt : Nat → ImportDeclaration → Except ε Bool)
    (mod : List ModuleItem) (delays : Nat → Nat)
    (hok : ∀ t ∈ transformTasksFrom 0 mod, ∃ b, shouldStripAt t.1 t.2 = Except.ok b) :
    ∀ i d, (i, d) ∈ transformTasksFrom 0 mod →
      (gatherStateOf shouldStripAt mod delays).settled.find? (fun p => p.1 == i)
        = some (i, taskValue shouldStripAt (i, d)) := by
  intro i d hm
  have hperm := settleOrder_perm delays (transformTasksFrom 0 mod)
  have hset := foldl_settle_settled shouldStripAt
    (settleOrder delays (transformTasksFrom 0 mod)) (initGatherState ε)
    (fun t ht => hok t (hperm.mem_iff.mp ht))
  have hsettled : (gatherStateOf shouldStripAt mod delays).settled
      = (settleOrder delays (transformTasksFrom 0 mod)).map
          (fun t => (t.1, taskValue shouldStripAt t)) := by
    rw [gatherStateOf, hset]; rfl
  rw [hsettled]
  refine settled_find (taskValue shouldStripAt) _ i d ?_ (hperm.mem_iff.mpr hm)
  exact ((hperm.map Prod.fst).nodup_iff).mpr (tasks_keys_nodup mod 0)

lemma gatherState_symbols {ε : Type} (shouldStripAt : Nat → ImportDeclaration → Except ε Bool)
    (mod : List ModuleItem) (delays : Nat → Nat) (x : String) :
    x ∈ (gatherStateOf shouldStripAt mod delays).strippedImportSymbols ↔
      ∃ t ∈ transformTasksFrom 0 mod, shouldStripAt t.1 t.2 = Except.ok true
        ∧ x ∈ t.2.specifiers.map Specifier.localValue := by
  have hperm := settleOrder_perm delays (transformTasksFrom 0 mod)
  rw [gatherStateOf, foldl_settle_symbols]
  constructor
  · rintro (hx | ⟨t, ht, h1, h2⟩)
    · simp [initGatherState] at hx
    · exact ⟨t, hperm.mem_iff.mp ht, h1, h2⟩
  · rintro ⟨t, ht, h1, h2⟩
    exact Or.inr ⟨t, hperm.mem_iff.mpr ht, h1, h2⟩

/-- Shared characterization of a successful, non-null transform: the
rewritten statement list equals the purely positional specification, and
a name is a stripped symbol exactly when some non-type import was decided
"strip" and binds it. -/
lemma transform_ok_some_spec {ε : Type} (P : PathLib) (mod : List ModuleItem)
    (id root : String) (shouldStripAt : Nat → ImportDeclaration → Except ε Bool)
    (delays : Nat → Nat) (r : TransformResult)
    (h : transform P mod id root shouldStripAt delays = Except.ok (some r)) :
    r.code = retainedSpecFrom shouldStripAt 0 mod
    ∧ (∀ x, x ∈ r.strippedImportSymbols ↔
        ∃ t ∈ transformTasksFrom 0 mod, shouldStripAt t.1 t.2 = Except.ok true
          ∧ x ∈ t.2.specifiers.map Specifier.localValue)
    ∧ r.relativeSource = relativeToRoot P id root := by
  rw [transform_eq] at h
  cases hfe : (gatherStateOf shouldStripAt mod delays).firstError with
  | some e => rw [hfe] at h; cases h
  | none =>
    rw [hfe] at h
    by_cases hlen : (gatherStateOf shouldStripAt mod delays).strippedImportSymbols.length = 0
    · rw [if_pos hlen] at h; cases h
    · rw [if_neg hlen] at h
      injection h with h1
      injection h1 with h2
      subst h2
      have hok := gatherState_none_ok shouldStripAt mod delays hfe
      refine ⟨?_, ?_, rfl⟩
      · exact gather_retained shouldStripAt _ mod 0
          (gatherState_find shouldStripAt mod delays hok)
      · intro x
        exact gatherState_symbols shouldStripAt mod delays x

lemma retainedSpecFrom_sublist {ε : Type}
    (shouldStripAt : Nat → ImportDeclaration → Except ε Bool) (l : List ModuleItem) :
    ∀ n : Nat, List.Sublist (retainedSpecFrom shouldStripAt n l) l := by
  induction l with
  | nil => intro n; exact List.Sublist.refl []
  | cons a rest ih =>
    intro n
    cases a with
    | other s =>
      rw [retained_cons_other]
      exact List.Sublist.cons₂ _ (ih (n + 1))
    | importDecl d =>
      by_cases hty : d.typeOnly = true
      · rw [retained_cons_typeOnly shouldStripAt n d rest hty]
        exact List.Sublist.cons₂ _ (ih (n + 1))
      · have hty2 : d.typeOnly = false := by simpa using hty
        cases hd : shouldStripAt n d with
        | error e =>
          rw [retained_cons_keep shouldStripAt n d rest hty2 (by simp [taskValue, hd])]
          exact List.Sublist.cons₂ _ (ih (n + 1))
        | ok b =>
          cases b with
          | true =>
            rw [retained_cons_strip shouldStripAt n d rest hty2 hd]
            exact List.Sublist.cons _ (ih (n + 1))
          | false =>
            rw [retained_cons_keep shouldStripAt n d rest hty2 (by simp [taskValue, hd])]
            exact List.Sublist.cons₂ _ (ih (n + 1))

lemma retained_typeOnly_mem {ε : Type}
    (shouldStripAt : Nat → ImportDeclaration → Except ε Bool) (l : List ModuleItem) :
    ∀ (n : Nat) (d : ImportDeclaration),
      ModuleItem.importDecl d ∈ l → d.typeOnly = true →
      ModuleItem.importDecl d ∈ retainedSpecFrom shouldStripAt n l := by
  induction l with
  | nil => intro n d hmem hty; cases hmem
  | cons a rest ih =>
    intro n d hmem hty
    rcases List.mem_cons.mp hmem with h | h
    · subst h
      rw [retained_cons_typeOnly shouldStripAt n d rest hty]
      exact List.mem_cons_self _ _
    · cases a with
      | other s =>
        rw [retained_cons_other]
        exact List.mem_cons_of_mem _ (ih (n + 1) d h hty)
      | importDecl d2 =>
        by_cases hty2 : d2.typeOnly = true
        · rw [retained_cons_typeOnly shouldStripAt n d2 rest hty2]
          exact List.mem_cons_of_mem _ (ih (n + 1) d h hty)
        · have hf : d2.typeOnly = false := by simpa using hty2
          cases hd : shouldStripAt n d2 with
          | error e =>
            rw [retained_cons_keep shouldStripAt n d2 rest hf (by simp [taskValue, hd])]
            exact List.mem_cons_of_mem _ (ih (n + 1) d h hty)
          | ok b =>
            cases b with
            | true =>
              rw [retained_cons_strip shouldStripAt n d2 rest hf hd]
              exact ih (n + 1) d h hty
            | false =>
              rw [retained_cons_keep shouldStripAt n d2 rest hf (by simp [taskValue, hd])]
              exact List.mem_cons_of_mem _ (ih (n + 1) d h hty)

/-- C1: within one file's transform, the retained top-level statements
appear in the rewritten output exactly in their original relative source
order, for every completion order of the (possibly asynchronous) predicate
invocations: the output equals the purely positional `retainedSpecFrom`
(which never mentions the delay assignment) and is a sublist of the
original body. -/
theorem c1_retained_order {ε : Type} (P : PathLib) (mod : List ModuleItem)
    (id root : String) (shouldStripAt : Nat → ImportDeclaration → Except ε Bool)
    (delays : Nat → Nat) (r : TransformResult)
    (h : transform P mod id root shouldStripAt delays = Except.ok (some r)) :
    r.code = retainedSpecFrom shouldStripAt 0 mod ∧ List.Sublist r.code mod := by
  have hspec := transform_ok_some_spec P mod id root shouldStripAt delays r h
  refine ⟨hspec.1, ?_⟩
  rw [hspec.1]
  exact retainedSpecFrom_sublist shouldStripAt mod 0

/-- Witness for C1: a file with two imports and a statement, where the
first import is stripped, under delays that settle the later decision
first; the output is the positional specification and a sublist. -/
theorem c1_witness :
    wResult.code = retainedSpecFrom wStrip 0 wMod ∧ List.Sublist wResult.code wMod :=
  c1_retained_order trivialPathLib wMod "index.ts" "" wStrip wDelays wResult (by rfl)

/-- C2: when a predicate invocation rejects (and every rejection carries
that error), the whole file transform aborts with that error, the hook
propagates it, no rewritten code is produced, and the Origin Registry is
returned unchanged. -/
theorem c2_predicate_failure_aborts {ε : Type} (P : PathLib) (st : Registry)
    (mod : List ModuleItem) (id root : String)
    (shouldStripAt : Nat → ImportDeclaration → Except ε Bool) (delays : Nat → Nat)
    (e : ε) (i : Nat) (d : ImportDeclaration)
    (hmem : (i, d) ∈ transformTasksFrom 0 mod)
    (herr : shouldStripAt i d = Except.error e)
    (huniq : ∀ t ∈ transformTasksFrom 0 mod, ∀ e2,
      shouldStripAt t.1 t.2 = Except.error e2 → e2 = e)
    (hmatch : transformHookMatchesId id = true) :
    transform P mod id root shouldStripAt delays = Except.error e
    ∧ pluginTransformHook P true st mod id root shouldStripAt delays
        = (st, shouldStripCalls P mod id root,
            Except.error (HookError.predicateError e)) := by
  have hperm := settleOrder_perm delays (transformTasksFrom 0 mod)
  have hfe : (gatherStateOf shouldStripAt mod delays).firstError = some e := by
    refine foldl_settle_firstError_some shouldStripAt e _ _
      (fun t ht => huniq t (hperm.mem_iff.mp ht))
      ⟨(i, d), hperm.mem_iff.mpr hmem, e, herr⟩ rfl
  have htr : transform P mod id root shouldStripAt delays = Except.error e := by
    rw [transform_eq, hfe]
  refine ⟨htr, ?_⟩
  simp [pluginTransformHook, hmatch, htr]

/-- Witness for C2: a one-import file whose predicate rejects with
`"boom"`; the transform and the hook abort with that error and the
registry passed in comes back unchanged. -/
theorem c2_witness :
    transform trivialPathLib [ModuleItem.importDecl wImportDev] "index.ts" ""
        w2Strip (fun _ => 0) = Except.error "boom"
    ∧ pluginTransformHook trivialPathLib true [] [ModuleItem.importDecl wImportDev]
        "index.ts" "" w2Strip (fun _ => 0)
      = ([], shouldStripCalls trivialPathLib [ModuleItem.importDecl wImportDev]
          "index.ts" "", Except.error (HookError.predicateError "boom")) :=
  c2_predicate_failure_aborts trivialPathLib [] [ModuleItem.importDecl wImportDev]
    "index.ts" "" w2Strip (fun _ => 0) "boom" 0 wImportDev (by decide) rfl
    (fun t ht e2 h2 => by
      have : Except.error (ε := String) (α := Bool) "boom" = Except.error e2 := h2
      injection this with h3
      exact h3.symm)
    (by decide)

/-- C3 fails on the code: a bare side-effect import (no bound names) whose
predicate decision is "strip" still makes the transform report `null`
(unchanged), because the source tests `strippedImportSymbols.size === 0`,
not whether any import was stripped.  The import is a real decision task
and is decided "strip", yet the transform reports unchanged. -/
theorem c3_counterexample :
    (0, wBareImport) ∈ transformTasksFrom 0 cxMod
    ∧ cxStrip 0 wBareImport = Except.ok true
    ∧ transform trivialPathLib cxMod "index.ts" "" cxStrip (fun _ => 0)
        = Except.ok none := by
  refine ⟨by decide, rfl, by rfl⟩

/-- C3 (amended): when no decision rejects, the transform reports
"unchanged" (null) iff every import decided "strip" binds no local name
(in particular, when the predicate keeps every import); and a null result
makes the hook return the Origin Registry unchanged with no code. -/
theorem c3_unchanged_iff {ε : Type} (P : PathLib) (st : Registry) (mod : List ModuleItem)
    (id root : String) (shouldStripAt : Nat → ImportDeclaration → Except ε Bool)
    (delays : Nat → Nat)
    (hok : ∀ t ∈ transformTasksFrom 0 mod, ∃ b, shouldStripAt t.1 t.2 = Except.ok b) :
    (transform P mod id root shouldStripAt delays = Except.ok none
      ↔ ∀ t ∈ transformTasksFrom 0 mod,
          shouldStripAt t.1 t.2 = Except.ok true → t.2.specifiers = [])
    ∧ (transform P mod id root shouldStripAt delays = Except.ok none →
        transformHookMatchesId id = true →
        pluginTransformHook P true st mod id root shouldStripAt delays
          = (st, shouldStripCalls P mod id root, Except.ok none)) := by
  have hfe := gatherState_none_of_ok shouldStripAt mod delays hok
  constructor
  · rw [transform_eq, hfe]
    constructor
    · intro h t ht hstrip
      by_cases hlen :
        (gatherStateOf shouldStripAt mod delays).strippedImportSymbols.length = 0
      · by_contra hne
        obtain ⟨sp, hsp⟩ := List.exists_mem_of_ne_nil _ hne
        have hx : sp.localValue ∈
            (gatherStateOf shouldStripAt mod delays).strippedImportSymbols :=
          (gatherState_symbols shouldStripAt mod delays sp.localValue).mpr
            ⟨t, ht, hstrip, List.mem_map.mpr ⟨sp, hsp, rfl⟩⟩
        rw [List.length_eq_zero] at hlen
        rw [hlen] at hx
        cases hx
      · rw [if_neg hlen] at h; cases h
    · intro hspec
      have hlen :
          (gatherStateOf shouldStripAt mod delays).strippedImportSymbols.length = 0 := by
        rw [List.length_eq_zero, List.eq_nil_iff_forall_not_mem]
        intro x hx
        obtain ⟨t, ht, hstrip, hxm⟩ :=
          (gatherState_symbols shouldStripAt mod delays x).mp hx
        rw [hspec t ht hstrip] at hxm
        cases hxm
      rw [if_pos hlen]
  · intro h hmatch
    simp [pluginTransformHook, hmatch, h]

/-- Witness for C3 (amended): with an always-`false` predicate the
transform of `wMod` reports unchanged and the hook leaves the registry
untouched. -/
theorem c3_witness :
    (transform trivialPathLib wMod "index.ts" "" w3Strip (fun _ => 0) = Except.ok none
      ↔ ∀ t ∈ transformTasksFrom 0 wMod,
          w3Strip t.1 t.2 = Except.ok true → t.2.specifiers = [])
    ∧ (transform trivialPathLib wMod "index.ts" "" w3Strip (fun _ => 0) = Except.ok none →
        transformHookMatchesId "index.ts" = true →
        pluginTransformHook trivialPathLib true [("old", ["o.ts"])] wMod "index.ts" ""
            w3Strip (fun _ => 0)
          = ([("old", ["o.ts"])],
              shouldStripCalls trivialPathLib wMod "index.ts" "", Except.ok none)) :=
  c3_unchanged_iff trivialPathLib [("old", ["o.ts"])] wMod "index.ts" "" w3Strip
    (fun _ => 0) (fun t ht => ⟨false, rfl⟩)

/-- C7: type-only imports are excluded from the strip mechanism: no
decision task (hence no predicate invocation) is created for them, a
type-only import present in the body is always retained verbatim in a
rewritten output, and every stripped binding name comes from a non-type
declaration decided "strip". -/
theorem c7_type_only_excluded {ε : Type} (P : PathLib) (mod : List ModuleItem)
    (id root : String) (shouldStripAt : Nat → ImportDeclaration → Except ε Bool)
    (delays : Nat → Nat) :
    (∀ t ∈ transformTasksFrom 0 mod, t.2.typeOnly = false)
    ∧ ∀ r, transform P mod id root shouldStripAt delays = Except.ok (some r) →
        (∀ d, ModuleItem.importDecl d ∈ mod → d.typeOnly = true →
          ModuleItem.importDecl d ∈ r.code)
        ∧ ∀ x ∈ r.strippedImportSymbols, ∃ t ∈ transformTasksFrom 0 mod,
            shouldStripAt t.1 t.2 = Except.ok true
              ∧ x ∈ t.2.specifiers.map Specifier.localValue := by
  refine ⟨fun t ht => tasks_typeOnly_false mod 0 t ht, ?_⟩
  intro r h
  have hspec := transform_ok_some_spec P mod id root shouldStripAt delays r h
  constructor
  · intro d hmem hty
    rw [hspec.1]
    exact retained_typeOnly_mem shouldStripAt mod 0 d hmem hty
  · intro x hx
    exact (hspec.2.1 x).mp hx

/-- Witness for C7: a file with a type-only import, a strippable import
and a statement, under an always-strip predicate: the type-only import is
kept in the output and the only decision task is the non-type import. -/
theorem c7_witness :
    ModuleItem.importDecl wTypeOnlyImport ∈ w7Result.code
    ∧ (∀ t ∈ transformTasksFrom 0 w7Mod, t.2.typeOnly = false) :=
  ⟨(((c7_type_only_excluded trivialPathLib w7Mod "index.ts" "" w7Strip
        (fun _ => 0)).2 w7Result (by rfl)).1 wTypeOnlyImport (by decide) rfl),
   (c7_type_only_excluded trivialPathLib w7Mod "index.ts" "" w7Strip (fun _ => 0)).1⟩

/-- C10: for a module id matching none of the six handled extensions, the
transform hook (with config resolved) returns `null` with no predicate
invocation and with the Origin Registry unchanged — the file is never
parsed or rewritten. -/
theorem c10_extension_gate {ε : Type} (P : PathLib) (st : Registry)
    (mod : List ModuleItem) (id root : String)
    (shouldStripAt : Nat → ImportDeclaration → Except ε Bool) (delays : Nat → Nat)
    (h : transformHookMatchesId id = false) :
    pluginTransformHook P true st mod id root shouldStripAt delays
      = (st, [], Except.ok none) := by
  simp [pluginTransformHook, h]

/-- Witness for C10 at ids the claim names: `.vue` is rejected (registry
kept, no calls, null result), and the extension test itself rejects
`.cts`, `.cjs` and `.json` while accepting `.ts`. -/
theorem c10_witness :
    pluginTransformHook (ε := String) trivialPathLib true [("k", ["v.ts"])] wMod
        "src/App.vue" "" wStrip wDelays = ([("k", ["v.ts"])], [], Except.ok none)
    ∧ transformHookMatchesId "a.cts" = false
    ∧ transformHookMatchesId "a.cjs" = false
    ∧ transformHookMatchesId "conf.json" = false
    ∧ transformHookMatchesId "a.ts" = true :=
  ⟨c10_extension_gate trivialPathLib [("k", ["v.ts"])] wMod "src/App.vue" "" wStrip
      wDelays (by decide),
   by decide, by decide, by decide, by decide⟩

/-! ### Bundle verifier lemmas -/

lemma foldl_pushRefError (P : PathLib) (chunk : OutputChunk) (reg : Registry)
    (root : String) (outputDir : Option String) :
    ∀ (l : List UndefinedRef) (acc : List String),
      l.foldl (pushRefError P chunk reg root outputDir) acc
      = acc ++ l.filterMap (refMessage P chunk reg root outputDir) := by
  intro l
  induction l with
  | nil => intro acc; simp
  | cons a rest ih =>
    intro acc
    rw [List.foldl_cons]
    cases hf : refMessage P chunk reg root outputDir a with
    | none => simp only [pushRefError, hf]; rw [ih]; simp [List.filterMap_cons, hf]
    | some m => simp only [pushRefError, hf]; rw [ih]; simp [List.filterMap_cons, hf]

lemma checkChunk_eq_filterMap (P : PathLib) (findUndefinedRefs : String → List UndefinedRef)
    (chunk : OutputChunk) (reg : Registry) (root : String) (outputDir : Option String) :
    checkChunk P findUndefinedRefs chunk reg root outputDir
      = (findUndefinedRefs chunk.code).filterMap (refMessage P chunk reg root outputDir) := by
  unfold checkChunk
  by_cases h : (findUndefinedRefs chunk.code).length = 0
  · rw [if_pos h]
    rw [List.length_eq_zero] at h
    rw [h]
    rfl
  · rw [if_neg h]
    simpa using foldl_pushRefError P chunk reg root outputDir (findUndefinedRefs chunk.code) []

lemma refMessage_empty_reg (P : PathLib) (chunk : OutputChunk) (root : String)
    (outputDir : Option String) (r : UndefinedRef) :
    refMessage P chunk [] root outputDir r = none := by
  simp [refMessage, mapGet]

lemma checkChunk_empty_reg (P : PathLib) (findUndefinedRefs : String → List UndefinedRef)
    (chunk : OutputChunk) (root : String) (outputDir : Option String) :
    checkChunk P findUndefinedRefs chunk [] root outputDir = [] := by
  rw [checkChunk_eq_filterMap]
  exact List.filterMap_eq_nil_iff.mpr
    (fun r hr => refMessage_empty_reg P chunk root outputDir r)

lemma foldl_pushChunkErrors (P : PathLib) (findUndefinedRefs : String → List UndefinedRef)
    (reg : Registry) (root : String) (outputDir : Option String) :
    ∀ (bundle : List BundleItem) (acc : List String),
      bundle.foldl (pushChunkErrors P findUndefinedRefs reg root outputDir) acc
      = acc ++ (bundle.filterMap bundleChunk).flatMap
          (fun c => checkChunk P findUndefinedRefs c reg root outputDir) := by
  intro bundle
  induction bundle with
  | nil => intro acc; simp
  | cons item rest ih =>
    intro acc
    rw [List.foldl_cons]
    cases item with
    | chunk c =>
      show (rest.foldl _ (acc ++ checkChunk P findUndefinedRefs c reg root outputDir)) = _
      rw [ih]
      simp [bundleChunk, List.filterMap_cons]
    | asset a =>
      show (rest.foldl _ acc) = _
      rw [ih]
      simp [bundleChunk, List.filterMap_cons]

/-- C8: the bundle verifier never stops at the first finding — its result
is exactly the concatenation, in bundle order, of every code chunk's
message list (assets skipped; the empty-registry fast path agrees with
this shape) — and the `generateBundle` hook surfaces the findings exactly
once, as one newline-joined error, raising nothing when the list is
empty. -/
theorem c8_verifier_aggregation (P : PathLib)
    (findUndefinedRefs : String → List UndefinedRef) (bundle : List BundleItem)
    (reg : Registry) (root : String) (outputDir : Option String) :
    checkBundle P findUndefinedRefs bundle reg root outputDir
      = (bundle.filterMap bundleChunk).flatMap
          (fun c => checkChunk P findUndefinedRefs c reg root outputDir)
    ∧ generateBundleError P findUndefinedRefs true bundle reg root outputDir
        = (if checkBundle P findUndefinedRefs bundle reg root outputDir = [] then none
           else some (String.intercalate "\n"
             (checkBundle P findUndefinedRefs bundle reg root outputDir))) := by
  constructor
  · unfold checkBundle
    by_cases h : reg.length = 0
    · rw [if_pos h]
      rw [List.length_eq_zero] at h
      subst h
      refine Eq.symm (List.eq_nil_iff_forall_not_mem.mpr ?_)
      intro x hx
      rw [List.mem_flatMap] at hx
      obtain ⟨c, hc, hm⟩ := hx
      rw [checkChunk_empty_reg] at hm
      cases hm
    · rw [if_neg h]
      exact foldl_pushChunkErrors P findUndefinedRefs reg root outputDir bundle []
  · unfold generateBundleError
    rw [if_neg (by decide : ¬(true = false))]
    by_cases h : checkBundle P findUndefinedRefs bundle reg root outputDir = []
    · rw [if_pos h, h]
      simp
    · rw [if_neg h, if_pos (List.length_pos.mpr h)]

/-- C4: a dangling reference that matches the registry (with a non-empty
restriction to the chunk's modules) and localizes through the chunk's
source map is reported with only the single resolved originating file —
not the full restricted origin list. -/
theorem c4_sourcemap_precise_message (P : PathLib)
    (findUndefinedRefs : String → List UndefinedRef) (chunk : OutputChunk)
    (reg : Registry) (root : String) (outputDir : Option String) (r : UndefinedRef)
    (m : SourceMap) (l c : Nat) (s : String) (sourceIds : List String)
    (hmem : r ∈ findUndefinedRefs chunk.code)
    (hreg : mapGet reg r.name = some sourceIds)
    (hrel : sourceIds.filter (fun i => chunk.moduleIds.contains i) ≠ [])
    (hmap : chunk.map = some m) (hline : r.line = some l) (hcol : r.column = some c)
    (hsrc : m l c = some s) :
    refMessage P chunk reg root outputDir r
      = some (strippedMessage r.name (renderOrigins P root outputDir [s]))
    ∧ strippedMessage r.name (renderOrigins P root outputDir [s])
        ∈ checkChunk P findUndefinedRefs chunk reg root outputDir := by
  have hloc : localizeRef chunk r = some s := by
    unfold localizeRef
    rw [hmap, hline, hcol]
    exact hsrc
  have hmsg : refMessage P chunk reg root outputDir r
      = some (strippedMessage r.name (renderOrigins P root outputDir [s])) := by
    unfold refMessage
    rw [hreg]
    simp only [hloc]
    rw [if_neg (by simpa [List.length_eq_zero] using hrel)]
    have hsort : sortStrings (renderOrigins P root outputDir [s])
        = renderOrigins P root outputDir [s] := by
      cases outputDir <;> rfl
    rw [hsort]
  refine ⟨hmsg, ?_⟩
  rw [checkChunk_eq_filterMap]
  exact List.mem_filterMap.mpr ⟨r, hmem, hmsg⟩

/-- Witness for C4: a chunk whose map localizes the reference to
`srcA.ts`; the message lists only that file although the restricted
registry list holds `A` and `B`. -/
theorem c4_witness :
    refMessage trivialPathLib wChunkMap wRegAB "" none wRefDebug
      = some (strippedMessage "debug" (renderOrigins trivialPathLib "" none ["srcA.ts"]))
    ∧ strippedMessage "debug" (renderOrigins trivialPathLib "" none ["srcA.ts"])
        ∈ checkChunk trivialPathLib wFindRefs wChunkMap wRegAB "" none := by
  have h := c4_sourcemap_precise_message trivialPathLib wFindRefs wChunkMap wRegAB ""
    none wRefDebug wMapA 1 1 "srcA.ts" ["A", "B"] (by decide) (by decide) (by decide)
    rfl rfl rfl (by decide)
  exact h

/-- C5 fails on the code: the restricted origin list is *not*
deduplicated before being sorted and joined — a registry holding the same
origin twice under one name yields the message
`... still in output (a.ts, a.ts)`, not the deduplicated `(a.ts)` the
claim requires. -/
theorem c5_counterexample :
    checkChunk trivialPathLib cxFindRefs cxChunkDup cxRegDup "" none
      = [strippedMessage "devOnly" ["a.ts", "a.ts"]]
    ∧ strippedMessage "devOnly" ["a.ts", "a.ts"] ≠ strippedMessage "devOnly" ["a.ts"] := by
  constructor
  · rfl
  · decide

/-- C5 (amended): a dangling reference that matches the registry but does
not localize through a source map is reported with the registry list
restricted to the chunk's contributing modules, rendered root-relative
when an output directory is known, lexically sorted — duplicates, if the
registry holds any, are preserved — inside the exact
`Stripped conditional import binding ... still in output (...)` template. -/
theorem c5_unlocalized_message (P : PathLib)
    (findUndefinedRefs : String → List UndefinedRef) (chunk : OutputChunk)
    (reg : Registry) (root : String) (outputDir : Option String) (r : UndefinedRef)
    (sourceIds : List String)
    (hmem : r ∈ findUndefinedRefs chunk.code)
    (hreg : mapGet reg r.name = some sourceIds)
    (hrel : sourceIds.filter (fun i => chunk.moduleIds.contains i) ≠ [])
    (hnoloc : localizeRef chunk r = none) :
    refMessage P chunk reg root outputDir r
      = some (strippedMessage r.name (sortStrings (renderOrigins P root outputDir
          (sourceIds.filter (fun i => chunk.moduleIds.contains i)))))
    ∧ strippedMessage r.name (sortStrings (renderOrigins P root outputDir
          (sourceIds.filter (fun i => chunk.moduleIds.contains i))))
        ∈ checkChunk P findUndefinedRefs chunk reg root outputDir := by
  have hmsg : refMessage P chunk reg root outputDir r
      = some (strippedMessage r.name (sortStrings (renderOrigins P root outputDir
          (sourceIds.filter (fun i => chunk.moduleIds.contains i))))) := by
    unfold refMessage
    rw [hreg]
    simp only [hnoloc]
    rw [if_neg (by simpa [List.length_eq_zero] using hrel)]
  refine ⟨hmsg, ?_⟩
  rw [checkChunk_eq_filterMap]
  exact List.mem_filterMap.mpr ⟨r, hmem, hmsg⟩

/-- Witness for C5 (amended) at the duplicate-registry instance: the
unlocalized reference is reported with the restricted (duplicate-bearing)
sorted origin list. -/
theorem c5_witness :
    refMessage trivialPathLib cxChunkDup cxRegDup "" none cxRefDev
      = some (strippedMessage "devOnly" (sortStrings (renderOrigins trivialPathLib ""
          none (["a.ts", "a.ts"].filter (fun i => cxChunkDup.moduleIds.contains i)))))
    ∧ strippedMessage "devOnly" (sortStrings (renderOrigins trivialPathLib "" none
          (["a.ts", "a.ts"].filter (fun i => cxChunkDup.moduleIds.contains i))))
        ∈ checkChunk trivialPathLib cxFindRefs cxChunkDup cxRegDup "" none :=
  c5_unlocalized_message trivialPathLib cxFindRefs cxChunkDup cxRegDup "" none cxRefDev
    ["a.ts", "a.ts"] (by decide) (by decide) (by decide) rfl

end ConditionalImports
